import Mathlib

/-!
Verification of the Conway's Game of Life engine and its seed-file parser.

The development shallowly embeds the Go sources: the current revision of
`life.go` (the `Field` / `Life` engine with a pluggable `LocationProvider`)
and the current revision of the file seeder (`NewFileLocationProvider`,
`parseConfigLine`, `parseConfigLineSettings`).  Machine integers are modelled
as `Int` (Go's `%` on `int` is truncated division, modelled by `Int.tmod`),
Go slices as `List`, and fallible operations (slice indexing, `make` with a
negative length, division by zero) return `Option`/`Except`: `none` models a
runtime panic.  Strings are modelled as lists of characters.
-/

namespace GoLife

/-- Go slice read `l[i]` with an `int` index: panics (`none`) unless
`0 ≤ i < len l`. -/
def goIndex {α : Type} (l : List α) (i : Int) : Option α :=
  if 0 ≤ i then l.get? i.toNat else none

/-- Go slice write `l[i] = v` with an `int` index: panics (`none`) unless
`0 ≤ i < len l`; otherwise returns the updated slice. -/
def goUpdate {α : Type} (l : List α) (i : Int) (v : α) : Option (List α) :=
  if 0 ≤ i ∧ i.toNat < l.length then some (l.set i.toNat v) else none

/-- Go `make([]T, n)`: a slice of `n` zero values; panics (`none`) for
`n < 0`. -/
def goMake {α : Type} (n : Int) (v : α) : Option (List α) :=
  if 0 ≤ n then some (List.replicate n.toNat v) else none

/-- The list `[0, 1, ..., n-1]` of `Int`s: the values taken by a Go loop
`for i := 0; i < n; i++`. -/
def intRange (n : Int) : List Int :=
  (List.range n.toNat).map Int.ofNat

/-- `FieldLocation` reifies a cell position within a `Field`
(from `life.go`). -/
structure FieldLocation where
  X : Int
  Y : Int
  deriving DecidableEq, Repr

/-- `Field` represents a two-dimensional field of cells (from `life.go`):
a row-major slice of rows of booleans plus the declared dimensions. -/
structure Field where
  state : List (List Bool)
  width : Int
  height : Int
  deriving DecidableEq, Repr

/-- `NewField` returns an empty field of the specified width and height
(from `life.go`).  Go first allocates the outer slice of `h` rows
(panicking for `h < 0`), then allocates each row (so `make([]bool, w)` is
only reached when `h > 0`). -/
def NewField (w h : Int) : Option Field := do
  let outer ← goMake h ([] : List Bool)
  let s ← outer.mapM (fun _ => goMake w false)
  pure { state := s, width := w, height := h }

/-- `Field.contains` checks whether the field includes a location
(from `life.go`): `loc.X < f.width && loc.Y < f.height`.  Note the source
compares only against the upper bounds. -/
def Field.contains (f : Field) (loc : FieldLocation) : Bool :=
  decide (loc.X < f.width) && decide (loc.Y < f.height)

/-- `Field.set` assigns a state to the specified cell (from `life.go`):
an out-of-bounds location per `contains` is logged and ignored; otherwise
Go executes `f.state[loc.Y][loc.X] = alive`, which panics when an index is
negative. -/
def Field.set (f : Field) (loc : FieldLocation) (alive : Bool) : Option Field :=
  if !(f.contains loc) then some f
  else do
    let row ← goIndex f.state loc.Y
    let row2 ← goUpdate row loc.X alive
    let s2 ← goUpdate f.state loc.Y row2
    pure { f with state := s2 }

/-- `Field.alive` reports whether the specified cell is alive
(from `life.go`): `x += w; x %= w; y += h; y %= h; return f.state[y][x]`.
Go's `%` truncates (`Int.tmod`) and panics when the modulus is zero. -/
def Field.alive (f : Field) (x y : Int) : Option Bool :=
  if f.width = 0 ∨ f.height = 0 then none
  else
    let x2 := Int.tmod (x + f.width) f.width
    let y2 := Int.tmod (y + f.height) f.height
    (goIndex f.state y2).bind (fun row => goIndex row x2)

/-- The eight neighbor offsets visited by the nested loops in `Field.next`,
in loop order, with the `i == 0 && j == 0` case skipped by the guard
`j != 0 || i != 0`. -/
def neighborOffsets : List (Int × Int) :=
  [(-1, -1), (-1, 0), (-1, 1), (0, -1), (0, 1), (1, -1), (1, 0), (1, 1)]

/-- The neighbor-counting loop of `Field.next` (from `life.go`): visits the
eight offsets in order, incrementing the count for each alive lookup; a
panicking lookup aborts the whole computation. -/
def Field.countNeighbors (f : Field) (x y : Int) : Option Nat :=
  neighborOffsets.foldlM
    (fun acc p => (f.alive (x + p.1) (y + p.2)).map
      (fun a => if a then acc + 1 else acc)) 0

/-- `Field.next` returns the state of the specified cell at the next time
step (from `life.go`): `neighbors == 3 || neighbors == 2 && f.alive(x, y)`,
with Go's short-circuit evaluation (the self lookup only runs when the
count is exactly 2). -/
def Field.next (f : Field) (x y : Int) : Option Bool :=
  (f.countNeighbors x y).bind (fun neighbors =>
    if neighbors = 3 then some true
    else if neighbors = 2 then f.alive x y
    else some false)

/-- `Life` stores the state of a round of the game (from `life.go`):
the current and next generation buffers, the dimensions and the generation
counter. -/
structure Life where
  thisGen : Field
  nextGen : Field
  width : Int
  height : Int
  genCount : Int
  deriving DecidableEq, Repr

/-- `Life.prepareNextGeneration` (from `life.go`): for every `y` in
`[0, height)` and `x` in `[0, width)`, writes `thisGen.next(x, y)` into
the `nextGen` buffer via `Field.set`. -/
def Life.prepareNextGeneration (l : Life) : Option Life := do
  let ng ← (intRange l.height).foldlM
    (fun (g : Field) y =>
      (intRange l.width).foldlM
        (fun (g : Field) x => do
          let b ← l.thisGen.next x y
          g.set { X := x, Y := y } b) g) l.nextGen
  pure { l with nextGen := ng }

/-- `Life.instateNextGeneration` (from `life.go`): swaps the two buffers
and increments the generation count. -/
def Life.instateNextGeneration (l : Life) : Life :=
  { l with thisGen := l.nextGen, nextGen := l.thisGen,
           genCount := l.genCount + 1 }

/-- `Life.step` advances the game to the next generation (from `life.go`). -/
def Life.step (l : Life) : Option Life :=
  (l.prepareNextGeneration).map Life.instateNextGeneration

/-- `n` consecutive calls to `Life.step`. -/
def Life.stepN : Nat → Life → Option Life
  | 0, l => some l
  | n + 1, l => (l.step).bind (Life.stepN n)

/-! ## Specification-side definitions

These follow the wording of the specification and are compared with the
embedded code. -/

/-- The raw stored state of cell `(x, y)` of a field (row `y`, column `x`),
with default `false` outside the stored arrays.  Meant to be applied at
non-negative in-range coordinates. -/
def storedAt (f : Field) (x y : Int) : Bool :=
  (f.state.getD y.toNat []).getD x.toNat false

/-- The toroidal wrap from the specification, written with Go's truncated
`%` exactly as the spec states it: `((x % w) + w) % w`. -/
def specWrap (x w : Int) : Int :=
  Int.tmod (Int.tmod x w + w) w

/-- Spec-side alive lookup: the stored state at the toroidally wrapped
coordinate. -/
def specAlive (f : Field) (x y : Int) : Bool :=
  storedAt f (specWrap x f.width) (specWrap y f.height)

/-- Spec-side neighbor count: the number of live cells among the eight
toroidal neighbors of `(x, y)`, the cell itself excluded. -/
def specNeighborCount (f : Field) (x y : Int) : Nat :=
  (neighborOffsets.filter (fun p => specAlive f (x + p.1) (y + p.2))).length

/-- Spec-side next state: alive iff the neighbor count is exactly 3, or
exactly 2 with the cell currently alive. -/
def nextSpec (f : Field) (x y : Int) : Bool :=
  specNeighborCount f x y == 3 ||
    (specNeighborCount f x y == 2 && specAlive f x y)

/-- A `Field` is well formed when its dimensions are positive and its
stored arrays have exactly the declared dimensions. -/
def Field.WellFormed (f : Field) : Prop :=
  0 < f.width ∧ 0 < f.height ∧ f.state.length = f.height.toNat ∧
    ∀ i < f.height.toNat, (f.state.getD i []).length = f.width.toNat

instance (f : Field) : Decidable f.WellFormed := by
  unfold Field.WellFormed; infer_instance

/-- A `Life` is well formed when both buffers are well formed and share
the declared dimensions. -/
def Life.WF (l : Life) : Prop :=
  l.thisGen.WellFormed ∧ l.nextGen.WellFormed ∧
    l.thisGen.width = l.width ∧ l.thisGen.height = l.height ∧
    l.nextGen.width = l.width ∧ l.nextGen.height = l.height

instance (l : Life) : Decidable l.WF := by
  unfold Life.WF; infer_instance

/-! ## Location providers and the Seeder

From `life.go`: the `LocationProvider` capability, its two implementations
(`RandomLocationProvider` and `FileLocationProvider`), and the `Seeder`
template that guards the next/hasNext contract. -/

/-- `RandomLocationProvider` (from `life.go`): emits random locations; the
successive draws of `rand.Intn(width)`, `rand.Intn(height)` are modelled by
an oracle `stream` indexed by the number of locations already emitted. -/
structure RandomLocationProvider where
  i : Int
  width : Int
  height : Int
  stream : Int → Int × Int

/-- `RandomLocationProvider.NextLocation` (from `life.go`): increments the
counter and returns a fresh random location.  Note the source never checks
`MoreLocations` here. -/
def RandomLocationProvider.NextLocation (r : RandomLocationProvider) :
    FieldLocation × RandomLocationProvider :=
  ({ X := (r.stream r.i).1, Y := (r.stream r.i).2 }, { r with i := r.i + 1 })

/-- `RandomLocationProvider.MoreLocations` (from `life.go`):
`r.i < r.width*r.height/4` with Go's truncated integer division. -/
def RandomLocationProvider.MoreLocations (r : RandomLocationProvider) : Bool :=
  decide (r.i < Int.tdiv (r.width * r.height) 4)

/-- `FileLocationProvider` (from the file seeder): a precomputed list of
locations and a cursor. -/
structure FileLocationProvider where
  path : List Char
  i : Int
  width : Int
  height : Int
  locs : List FieldLocation
  deriving DecidableEq, Repr

/-- `FileLocationProvider.NextLocation` (from the file seeder):
`loc = &f.locs[f.i]; f.i++` — the slice access panics (`none`) when the
cursor is out of range. -/
def FileLocationProvider.NextLocation (f : FileLocationProvider) :
    Option (FieldLocation × FileLocationProvider) :=
  (goIndex f.locs f.i).map (fun loc => (loc, { f with i := f.i + 1 }))

/-- `FileLocationProvider.MoreLocations` (from the file seeder):
`f.i < len(f.locs)`. -/
def FileLocationProvider.MoreLocations (f : FileLocationProvider) : Bool :=
  decide (f.i < (f.locs.length : Int))

/-- The `LocationProvider` interface (from `life.go`) with its two
implementations. -/
inductive LocationProvider where
  | random (r : RandomLocationProvider)
  | file (f : FileLocationProvider)

/-- Dynamic dispatch of `MoreLocations`. -/
def LocationProvider.MoreLocations : LocationProvider → Bool
  | .random r => r.MoreLocations
  | .file f => f.MoreLocations

/-- Dynamic dispatch of `NextLocation`; `none` models a panic. -/
def LocationProvider.NextLocation :
    LocationProvider → Option (FieldLocation × LocationProvider)
  | .random r => some ((r.NextLocation).1, .random (r.NextLocation).2)
  | .file f => (f.NextLocation).map (fun p => (p.1, .file p.2))

/-- `Seeder` wraps a `LocationProvider` (from `life.go`). -/
structure Seeder where
  provider : LocationProvider

/-- `Seeder.assertMoreLocations` followed by the provider call
(from `life.go`): `log.Fatal` — modelled as `none`, execution halts — when
the wrapped provider has no more locations; otherwise delegates. -/
def Seeder.nextLocation (s : Seeder) : Option (FieldLocation × Seeder) :=
  if s.provider.MoreLocations = false then none
  else (s.provider.NextLocation).map (fun p => (p.1, { provider := p.2 }))

/-! ## The seed-file parser

From the current revision of the file seeder: `ignorable`,
`parseConfigLineSettings`, `toFieldLocations`, `parseConfigLine`, `maxCol`
and `NewFileLocationProvider`.  The package-level mutable `columnOffset`
is threaded explicitly: each function takes the offset value the global
holds on entry and returns the value it holds on exit. -/

/-- Go `strings.TrimRightFunc(s, unicode.IsSpace)`. -/
def trimRight (s : List Char) : List Char :=
  (s.reverse.dropWhile Char.isWhitespace).reverse

/-- Go `strconv.Atoi`: an optional sign followed by at least one digit. -/
def digitsToNat (l : List Char) : Option Nat :=
  l.foldlM
    (fun acc c =>
      if c.isDigit then some (acc * 10 + (c.toNat - '0'.toNat)) else none) 0

/-- Go `strconv.Atoi` on a character list; `none` models a non-nil error. -/
def Atoi (s : List Char) : Option Int :=
  match s with
  | [] => none
  | '+' :: rest =>
    if rest = [] then none
    else (digitsToNat rest).map (fun m => Int.ofNat m)
  | '-' :: rest =>
    if rest = [] then none
    else (digitsToNat rest).map (fun m => -(Int.ofNat m))
  | _ => (digitsToNat s).map (fun m => Int.ofNat m)

/-- `ignorable` (from the file seeder): a line starting with `#` or
containing no `:` is ignored. -/
def ignorable (configline : List Char) : Bool :=
  configline.head? == some '#' || !(configline.contains ':')

/-- `parseConfigLineSettings` (from the file seeder): the 0-based indices
of the non-space characters of the marks string. -/
def parseConfigLineSettings (settings : List Char) : List Nat :=
  ((settings.enum).filter (fun p => p.2 != ' ')).map Prod.fst

/-- `toFieldLocations` (from the file seeder): maps relative column
numbers to locations on row `y`, adding the column offset. -/
def toFieldLocations (cols : List Nat) (y : Int) (co : Int) :
    List FieldLocation :=
  cols.map (fun x => { X := Int.ofNat x + co, Y := y })

/-- `parseConfigLine` (from the current file seeder revision): parses one
line given the carried-over row and the current column offset, returning
the produced locations, the updated row, and the updated column offset.
Go's `strings.Split(configline, ":")` splits at every colon and the code
reads `parts[0]` and `parts[1]`, so on a multi-colon line only the text
between the first and second colon is scanned for marks.  The `ignorable`
guard guarantees at least one colon, so the fallback match arm is
unreachable. -/
def parseConfigLine (configline : List Char) (lastRow : Int) (co : Int) :
    List FieldLocation × Int × Int :=
  if ignorable configline then ([], lastRow, co)
  else
    match configline.splitOn ':' with
    | header :: rest0 :: _ =>
      let settings := trimRight rest0
      if header = ['>', '>'] then
        match Atoi settings with
        | some co2 => if 0 ≤ co2 then ([], lastRow, co2) else ([], lastRow, co)
        | none => ([], lastRow, co)
      else
        match (if header = ['+', '+'] then some (lastRow + 1)
               else Atoi header) with
        | none => ([], lastRow, co)
        | some y =>
          let cols := parseConfigLineSettings settings
          if cols = [] then ([], y, co)
          else (toFieldLocations cols y co, y, co)
    | _ => ([], lastRow, co)

/-- `maxCol` (from the file seeder): the maximum of `x` and the X
coordinates of the accumulated locations. -/
def maxCol (x : Int) (locs : List FieldLocation) : Int :=
  locs.foldl (fun m l => if l.X > m then l.X else m) x

/-- The loop state of `NewFileLocationProvider`: the accumulated
locations, the running minimum bounds, the carried row, and the value of
the `columnOffset` global. -/
structure ParseState where
  locs : List FieldLocation
  minX : Int
  minY : Int
  row : Int
  co : Int
  deriving DecidableEq, Repr

/-- One iteration of the `NewFileLocationProvider` loop (from the current
file seeder revision). -/
def parseStep (st : ParseState) (l : List Char) : ParseState :=
  let r := parseConfigLine l st.row st.co
  let locs2 := st.locs ++ r.1
  { locs := locs2, minX := maxCol st.minX locs2, minY := max st.minY r.2.1,
    row := r.2.1, co := r.2.2 }

/-- Construction failure of a `FileLocationProvider`. -/
inductive SeedError where
  | emptyFile
  deriving DecidableEq, Repr

/-- `NewFileLocationProvider` (from the current file seeder revision),
with the file already read into `lines`.  The local `row` starts at `0`
and the `columnOffset` global enters with whatever value `co0` it had;
the final component returns the global's value when the parse ends. -/
def NewFileLocationProvider (path : List Char) (lines : List (List Char))
    (co0 : Int) : Except SeedError (FileLocationProvider × Int) :=
  if lines = [] then Except.error SeedError.emptyFile
  else
    let st := lines.foldl parseStep
      { locs := [], minX := 0, minY := 0, row := 0, co := co0 }
    Except.ok
      (FileLocationProvider.mk path 0 (st.minX + 1) (st.minY + 1) st.locs,
        st.co)

/-! ## Concrete values used in witnesses and counterexamples -/

/-- An all-dead, well-formed 3 by 3 field. -/
def exF3 : Field :=
  Field.mk (List.replicate 3 (List.replicate 3 false)) 3 3

/-- A well-formed 3 by 3 field with live cells at (0,0), (1,0) and (0,1). -/
def blockF : Field :=
  Field.mk [[true, true, false], [true, false, false],
    [false, false, false]] 3 3

/-- An all-dead, well-formed 2 by 2 simulation at generation 0. -/
def exLife : Life :=
  Life.mk (Field.mk (List.replicate 2 (List.replicate 2 false)) 2 2)
    (Field.mk (List.replicate 2 (List.replicate 2 false)) 2 2) 2 2 0

/-- A file-backed provider with an empty location list. -/
def emptyFLP : FileLocationProvider :=
  FileLocationProvider.mk [] 0 1 1 []

/-- The mark region as the specification words it: the substring after
the first `:` of the line. -/
def specAfterFirstColon (line : List Char) : List Char :=
  (line.dropWhile (fun c => c ≠ ':')).drop 1

/-- A field of the given dimensions with the given cells set alive,
built through the embedded constructors (`NewField` followed by `set`
calls, the way the seeding loop paints the initial field). -/
def mkField (w h : Int) (cells : List (Int × Int)) : Option Field := do
  let f0 ← NewField w h
  cells.foldlM (fun f c => f.set (FieldLocation.mk c.1 c.2) true) f0

/-- A simulation at generation 0 whose current buffer holds the given
cells and whose next buffer is empty, mirroring `NewLife`. -/
def mkLife (w h : Int) (cells : List (Int × Int)) : Option Life := do
  let f ← mkField w h cells
  let g ← NewField w h
  pure (Life.mk f g w h 0)

end GoLife

namespace GoLifeOld

/-! ## The older file seeder revision (`fileseeder.go`)

This revision differs from the current one: lines whose colon-split does
not have exactly two parts are ignored, the marks string is not trimmed,
the `>>` operand is not required to be non-negative, and the carried row
of `NewFileLocationProvider` starts at `-1`. -/

/-- `parseConfigLineMarkings` (from `fileseeder.go`): identical scanning
of the marks string. -/
def parseConfigLineMarkings (markedLine : List Char) : List Nat :=
  ((markedLine.enum).filter (fun p => p.2 != ' ')).map Prod.fst

/-- `parseConfigLine` (from `fileseeder.go`), `columnOffset` threaded as
in the current revision. -/
def parseConfigLine (configline : List Char) (lastRow : Int) (co : Int) :
    List GoLife.FieldLocation × Int × Int :=
  if configline.head? == some '#' then ([], lastRow, co)
  else
    match configline.splitOn ':' with
    | [header, data] =>
      if header = ['>', '>'] then
        match GoLife.Atoi data with
        | some co2 => ([], lastRow, co2)
        | none => ([], lastRow, co)
      else
        match (if header = ['+', '+'] then some (lastRow + 1)
               else GoLife.Atoi header) with
        | none => ([], lastRow, co)
        | some y =>
          let cols := parseConfigLineMarkings data
          if cols = [] then ([], y, co)
          else (cols.map (fun x => { X := Int.ofNat x + co, Y := y }), y, co)
    | _ => ([], lastRow, co)

/-- The provider struct of the `fileseeder.go` revision. -/
structure FileLocationProvider where
  w : Int
  h : Int
  i : Int
  locs : List GoLife.FieldLocation
  deriving DecidableEq, Repr

/-- `NewFileLocationProvider` (from `fileseeder.go`): the carried row
starts at `-1`; returns the provider together with the final column
offset, or `none` for an empty file (which the source reports by
returning `nil`). -/
def NewFileLocationProvider (lines : List (List Char)) (w h : Int)
    (co0 : Int) : Option (FileLocationProvider × Int) :=
  if lines = [] then none
  else
    let st := lines.foldl
      (fun (st : List GoLife.FieldLocation × Int × Int) l =>
        let r := parseConfigLine l st.2.1 st.2.2
        (st.1 ++ r.1, r.2.1, r.2.2))
      ([], -1, co0)
    some (FileLocationProvider.mk w h 0 st.1, st.2.2)

end GoLifeOld

namespace GoLife

/-! ## Arithmetic lemmas about the toroidal wrap -/

theorem tmod_add_self_nonneg (x w : Int) (hw : 0 < w) :
    0 ≤ Int.tmod x w + w := by
  rcases le_or_lt 0 x with hx | hx
  · have h1 : 0 ≤ Int.tmod x w := Int.tmod_nonneg w hx
    omega
  · have h1 : 0 ≤ Int.tmod (-x) w := Int.tmod_nonneg w (by omega)
    have h2 : Int.tmod (-x) w < w := Int.tmod_lt_of_pos (-x) hw
    have h3 : Int.tmod (-x) w = -(Int.tmod x w) := by
      rw [Int.tmod_def, Int.tmod_def, Int.neg_tdiv]; ring
    omega

theorem specWrap_eq_emod (x w : Int) (hw : 0 < w) :
    specWrap x w = Int.emod x w := by
  unfold specWrap
  rw [Int.tmod_eq_emod (tmod_add_self_nonneg x w hw) (by omega)]
  have h : Int.tmod x w + w = x + w * (1 - Int.tdiv x w) := by
    rw [Int.tmod_def]; ring
  rw [h, Int.add_mul_emod_self_left]; rfl

theorem tmod_shift_eq_emod (x w : Int) (hw : 0 < w) (hx : -w ≤ x) :
    Int.tmod (x + w) w = Int.emod x w := by
  rw [Int.tmod_eq_emod (by omega) (by omega)]
  have h : x + w = x + w * 1 := by ring
  rw [h, Int.add_mul_emod_self_left]; rfl

theorem emod_nonneg_lt (x w : Int) (hw : 0 < w) :
    0 ≤ Int.emod x w ∧ Int.emod x w < w :=
  ⟨Int.emod_nonneg x (by omega), Int.emod_lt_of_pos x hw⟩

theorem specWrap_eq_self (x w : Int) (hw0 : 0 ≤ x) (hw : x < w) :
    specWrap x w = x := by
  rw [specWrap_eq_emod x w (by omega)]
  exact Int.emod_eq_of_lt hw0 hw

/-! ## List access lemmas -/

theorem get?_eq_getD {α : Type} (l : List α) (n : Nat) (d : α)
    (h : n < l.length) : l.get? n = some (l.getD n d) := by
  rw [List.get?_eq_getElem?, List.getElem?_eq_getElem h]
  simp [List.getD_eq_getElem?_getD, List.getElem?_eq_getElem h]

theorem getD_set_self {α : Type} (l : List α) (i : Nat) (v d : α)
    (h : i < l.length) : (l.set i v).getD i d = v := by
  simp [List.getD_eq_getElem?_getD, List.getElem?_set, h]

theorem getD_set_ne {α : Type} (l : List α) (i j : Nat) (v d : α)
    (hij : i ≠ j) : (l.set i v).getD j d = l.getD j d := by
  simp [List.getD_eq_getElem?_getD, List.getElem?_set, hij]

theorem goIndex_eq_getD {α : Type} (l : List α) (i : Int) (d : α)
    (h0 : 0 ≤ i) (h : i.toNat < l.length) :
    goIndex l i = some (l.getD i.toNat d) := by
  unfold goIndex
  rw [if_pos h0, get?_eq_getD l i.toNat d h]

/-! ## The `alive` lookup -/

theorem alive_eq_specAlive (f : Field) (hf : f.WellFormed) (x y : Int)
    (hx : -f.width ≤ x) (hy : -f.height ≤ y) :
    f.alive x y = some (specAlive f x y) := by
  obtain ⟨hw, hh, hlen, hrows⟩ := hf
  unfold Field.alive
  rw [if_neg (by omega)]
  simp only [tmod_shift_eq_emod x f.width hw hx,
    tmod_shift_eq_emod y f.height hh hy]
  obtain ⟨hy0, hyl⟩ := emod_nonneg_lt y f.height hh
  obtain ⟨hx0, hxl⟩ := emod_nonneg_lt x f.width hw
  have hyn : (Int.emod y f.height).toNat < f.state.length := by omega
  rw [goIndex_eq_getD f.state _ [] hy0 hyn]
  have hrow := hrows (Int.emod y f.height).toNat (by omega)
  have hxn : (Int.emod x f.width).toNat <
      (f.state.getD (Int.emod y f.height).toNat []).length := by omega
  rw [Option.some_bind, goIndex_eq_getD _ _ false hx0 hxn]
  unfold specAlive storedAt
  rw [specWrap_eq_emod x f.width hw, specWrap_eq_emod y f.height hh]

/-! ## The `set` update -/

theorem set_in_range (f : Field) (hf : f.WellFormed) (x y : Int) (b : Bool)
    (hx0 : 0 ≤ x) (hx : x < f.width) (hy0 : 0 ≤ y) (hy : y < f.height) :
    ∃ f2, f.set { X := x, Y := y } b = some f2 ∧ f2.WellFormed ∧
      f2.width = f.width ∧ f2.height = f.height ∧
      (∀ a c : Int, 0 ≤ a → 0 ≤ c →
        storedAt f2 a c = if a = x ∧ c = y then b else storedAt f a c) := by
  obtain ⟨hw, hh, hlen, hrows⟩ := hf
  have hcont : f.contains { X := x, Y := y } = true := by
    unfold Field.contains; simp; omega
  have hyn : y.toNat < f.state.length := by omega
  have hrowlen := hrows y.toNat (by omega)
  have hxn : x.toNat < (f.state.getD y.toNat []).length := by omega
  refine ⟨Field.mk
    (f.state.set y.toNat ((f.state.getD y.toNat []).set x.toNat b))
    f.width f.height, ?_, ?_, rfl, rfl, ?_⟩
  · have h1 : goIndex f.state y = some (f.state.getD y.toNat []) :=
      goIndex_eq_getD _ _ _ hy0 hyn
    have h2 : goUpdate (f.state.getD y.toNat []) x b
        = some ((f.state.getD y.toNat []).set x.toNat b) := by
      unfold goUpdate; rw [if_pos ⟨hx0, hxn⟩]
    have h3 : goUpdate f.state y ((f.state.getD y.toNat []).set x.toNat b)
        = some (f.state.set y.toNat
            ((f.state.getD y.toNat []).set x.toNat b)) := by
      unfold goUpdate; rw [if_pos ⟨hy0, hyn⟩]
    simp only [Field.set, hcont, Bool.not_true, Bool.false_eq_true,
      if_false, Option.bind_eq_bind, h1, Option.some_bind, h2, h3,
      Option.pure_def]
  · refine ⟨hw, hh, by simp [List.length_set, hlen], ?_⟩
    intro i hi
    by_cases hiy : i = y.toNat
    · subst hiy
      rw [getD_set_self _ _ _ _ hyn, List.length_set]
      exact hrowlen
    · rw [getD_set_ne _ _ _ _ _ (fun hcontra => hiy hcontra.symm)]
      exact hrows i hi
  · intro a c ha0 hc0
    unfold storedAt
    by_cases hcy : c = y
    · subst hcy
      rw [getD_set_self _ _ _ _ hyn]
      by_cases hax : a = x
      · subst hax
        rw [if_pos ⟨rfl, rfl⟩, getD_set_self _ _ _ _ hxn]
      · rw [if_neg (fun hcontra => hax hcontra.1)]
        rw [getD_set_ne _ _ _ _ _ (by omega)]
    · rw [getD_set_ne _ _ _ _ _ (by omega)]
      rw [if_neg (fun hcontra => hcy hcontra.2)]

/-! ## The neighbor count and the next-state rule -/

theorem foldlM_count (f : Field) (hf : f.WellFormed) (x y : Int)
    (L : List (Int × Int)) (n : Nat)
    (hL : ∀ p ∈ L, -f.width ≤ x + p.1 ∧ -f.height ≤ y + p.2) :
    (L.foldlM (fun acc p => (f.alive (x + p.1) (y + p.2)).map
      (fun a => if a then acc + 1 else acc)) n : Option Nat)
    = some (n + (L.filter
        (fun p => specAlive f (x + p.1) (y + p.2))).length) := by
  induction L generalizing n with
  | nil => simp
  | cons p t ih =>
    have hp := hL p (List.mem_cons_self p t)
    have ht : ∀ q ∈ t, -f.width ≤ x + q.1 ∧ -f.height ≤ y + q.2 :=
      fun q hq => hL q (List.mem_cons_of_mem p hq)
    rw [List.foldlM_cons, alive_eq_specAlive f hf _ _ hp.1 hp.2]
    simp only [Option.map_some', Option.bind_eq_bind, Option.some_bind]
    cases hsa : specAlive f (x + p.1) (y + p.2) with
    | false =>
      simp only [hsa, Bool.false_eq_true, if_false]
      rw [ih n ht, List.filter_cons]
      simp [hsa]
    | true =>
      simp only [hsa, if_true]
      rw [ih (n + 1) ht, List.filter_cons]
      simp only [hsa, if_true, List.length_cons]
      congr 1
      omega

theorem countNeighbors_eq (f : Field) (hf : f.WellFormed) (x y : Int)
    (hx0 : 0 ≤ x) (hx : x < f.width) (hy0 : 0 ≤ y) (hy : y < f.height) :
    f.countNeighbors x y = some (specNeighborCount f x y) := by
  have hw := hf.1
  have hh := hf.2.1
  unfold Field.countNeighbors specNeighborCount
  rw [foldlM_count f hf x y neighborOffsets 0 ?_]
  · simp
  · intro p hp
    fin_cases hp <;> constructor <;> simp <;> omega

theorem next_eq_nextSpec (f : Field) (hf : f.WellFormed) (x y : Int)
    (hx0 : 0 ≤ x) (hx : x < f.width) (hy0 : 0 ≤ y) (hy : y < f.height) :
    f.next x y = some (nextSpec f x y) := by
  unfold Field.next nextSpec
  rw [countNeighbors_eq f hf x y hx0 hx hy0 hy, Option.some_bind]
  by_cases h3 : specNeighborCount f x y = 3
  · simp [h3]
  · by_cases h2 : specNeighborCount f x y = 2
    · rw [if_neg h3, if_pos h2,
        alive_eq_specAlive f hf x y (by omega) (by omega)]
      simp [h2, h3]
    · simp [h2, h3]

/-! ## The step of the simulation -/

theorem mem_intRange (x n : Int) : x ∈ intRange n ↔ 0 ≤ x ∧ x < n := by
  simp only [intRange, List.mem_map, List.mem_range, Int.ofNat_eq_coe]
  constructor
  · rintro ⟨i, hi, rfl⟩
    omega
  · intro h
    exact ⟨x.toNat, by omega, by omega⟩

theorem foldl_set_row (src : Field) (hsrc : src.WellFormed)
    (y : Int) (hy0 : 0 ≤ y) (hy : y < src.height) :
    ∀ (xs : List Int) (g : Field), g.WellFormed →
      g.width = src.width → g.height = src.height →
      (∀ x ∈ xs, 0 ≤ x ∧ x < src.width) →
      ∃ g2, (xs.foldlM (fun (g : Field) x => do
          let b ← src.next x y
          g.set { X := x, Y := y } b) g) = some g2 ∧
        g2.WellFormed ∧ g2.width = src.width ∧ g2.height = src.height ∧
        (∀ a c : Int, 0 ≤ a → 0 ≤ c →
          storedAt g2 a c =
            if c = y ∧ a ∈ xs then nextSpec src a y else storedAt g a c)
  | [], g, hg, hgw, hgh, _ => by
    refine ⟨g, by simp, hg, hgw, hgh, ?_⟩
    intro a c _ _
    simp
  | x0 :: xs, g, hg, hgw, hgh, hxs => by
    have hx0 := hxs x0 (List.mem_cons_self x0 xs)
    have hnext : src.next x0 y = some (nextSpec src x0 y) :=
      next_eq_nextSpec src hsrc x0 y hx0.1 hx0.2 hy0 hy
    obtain ⟨g1, hset, hg1, hg1w, hg1h, hcell⟩ :=
      set_in_range g hg x0 y (nextSpec src x0 y)
        hx0.1 (by omega) hy0 (by omega)
    obtain ⟨g2, hfold, hg2, hg2w, hg2h, hcell2⟩ :=
      foldl_set_row src hsrc y hy0 hy xs g1 hg1 (by omega) (by omega)
        (fun x hx => hxs x (List.mem_cons_of_mem x0 hx))
    refine ⟨g2, ?_, hg2, hg2w, hg2h, ?_⟩
    · rw [List.foldlM_cons]
      simp only [Option.bind_eq_bind, hnext, Option.some_bind, hset]
      exact hfold
    · intro a c ha hc
      rw [hcell2 a c ha hc, hcell a c ha hc]
      by_cases hcy : c = y
      · subst hcy
        by_cases hmem : a ∈ xs
        · simp [hmem, List.mem_cons]
        · by_cases hax : a = x0
          · subst hax
            simp [hmem, List.mem_cons]
          · simp [hmem, hax, List.mem_cons]
      · simp [hcy]

theorem foldl_set_all (src : Field) (hsrc : src.WellFormed) :
    ∀ (ys : List Int) (g : Field), g.WellFormed →
      g.width = src.width → g.height = src.height →
      (∀ y ∈ ys, 0 ≤ y ∧ y < src.height) →
      ∃ g2, (ys.foldlM (fun (g : Field) y =>
          (intRange src.width).foldlM (fun (g : Field) x => do
            let b ← src.next x y
            g.set { X := x, Y := y } b) g) g) = some g2 ∧
        g2.WellFormed ∧ g2.width = src.width ∧ g2.height = src.height ∧
        (∀ a c : Int, 0 ≤ a → 0 ≤ c →
          storedAt g2 a c =
            if c ∈ ys ∧ a < src.width then nextSpec src a c
            else storedAt g a c)
  | [], g, hg, hgw, hgh, _ => by
    refine ⟨g, by simp, hg, hgw, hgh, ?_⟩
    intro a c _ _
    simp
  | y0 :: ys, g, hg, hgw, hgh, hys => by
    have hy0 := hys y0 (List.mem_cons_self y0 ys)
    obtain ⟨g1, hrow, hg1, hg1w, hg1h, hcell⟩ :=
      foldl_set_row src hsrc y0 hy0.1 hy0.2 (intRange src.width) g
        hg hgw hgh (fun x hx => (mem_intRange x src.width).mp hx)
    obtain ⟨g2, hfold, hg2, hg2w, hg2h, hcell2⟩ :=
      foldl_set_all src hsrc ys g1 hg1 hg1w hg1h
        (fun y hy => hys y (List.mem_cons_of_mem y0 hy))
    refine ⟨g2, ?_, hg2, hg2w, hg2h, ?_⟩
    · rw [List.foldlM_cons]
      simp only [Option.bind_eq_bind] at hrow hfold ⊢
      rw [hrow, Option.some_bind]
      exact hfold
    · intro a c ha hc
      rw [hcell2 a c ha hc, hcell a c ha hc]
      by_cases hcy : c = y0
      · subst hcy
        by_cases hmem : c ∈ ys
        · by_cases haw : a < src.width
          · simp [hmem, haw, List.mem_cons, mem_intRange, ha]
          · simp [hmem, haw, List.mem_cons, mem_intRange]
        · by_cases haw : a < src.width
          · simp [hmem, haw, List.mem_cons, mem_intRange, ha]
          · simp [hmem, haw, List.mem_cons, mem_intRange]
      · by_cases hmem : c ∈ ys
        · by_cases haw : a < src.width
          · simp [hcy, hmem, haw, List.mem_cons, mem_intRange, ha]
          · simp [hcy, hmem, haw, List.mem_cons, mem_intRange]
        · simp [hcy, hmem, List.mem_cons, mem_intRange]

theorem prepare_eq (l : Life) (hl : l.WF) :
    ∃ g2, l.prepareNextGeneration = some { l with nextGen := g2 } ∧
      g2.WellFormed ∧ g2.width = l.width ∧ g2.height = l.height ∧
      (∀ a c : Int, 0 ≤ a → a < l.width → 0 ≤ c → c < l.height →
        storedAt g2 a c = nextSpec l.thisGen a c) := by
  obtain ⟨hthis, hnext, htw, hth, hnw, hnh⟩ := hl
  obtain ⟨g2, hfold, hg2, hg2w, hg2h, hcell⟩ :=
    foldl_set_all l.thisGen hthis (intRange l.height) l.nextGen hnext
      (by omega) (by omega)
      (fun y hy => by
        have := (mem_intRange y l.height).mp hy
        omega)
  refine ⟨g2, ?_, hg2, by omega, by omega, ?_⟩
  · unfold Life.prepareNextGeneration
    rw [htw] at hfold
    simp only [Option.bind_eq_bind, Option.pure_def] at hfold ⊢
    rw [hfold, Option.some_bind]
  · intro a c ha haw hc hch
    rw [hcell a c ha hc]
    rw [if_pos ⟨(mem_intRange c l.height).mpr ⟨hc, hch⟩, by omega⟩]

theorem step_eq (l : Life) (hl : l.WF) :
    ∃ l2, l.step = some l2 ∧ l2.WF ∧
      l2.width = l.width ∧ l2.height = l.height ∧
      l2.nextGen = l.thisGen ∧ l2.genCount = l.genCount + 1 ∧
      l2.thisGen.width = l.width ∧ l2.thisGen.height = l.height ∧
      (∀ a c : Int, 0 ≤ a → a < l.width → 0 ≤ c → c < l.height →
        storedAt l2.thisGen a c = nextSpec l.thisGen a c) := by
  obtain ⟨g2, hprep, hg2, hg2w, hg2h, hcell⟩ := prepare_eq l hl
  refine ⟨Life.instateNextGeneration { l with nextGen := g2 },
    ?_, ?_, rfl, rfl, rfl, rfl, by simpa using hg2w,
    by simpa using hg2h, ?_⟩
  · unfold Life.step
    rw [hprep, Option.map_some']
  · obtain ⟨hthis, _, htw, hth, _, _⟩ := hl
    exact ⟨hg2, hthis, by simpa using hg2w, by simpa using hg2h,
      by simpa using htw, by simpa using hth⟩
  · intro a c ha haw hc hch
    exact hcell a c ha haw hc hch

theorem step_genCount (l l2 : Life) (h : l.step = some l2) :
    l2.genCount = l.genCount + 1 := by
  unfold Life.step at h
  rw [Option.map_eq_some'] at h
  obtain ⟨p, hp, rfl⟩ := h
  unfold Life.prepareNextGeneration at hp
  simp only [Option.bind_eq_bind, Option.pure_def] at hp
  rw [Option.bind_eq_some] at hp
  obtain ⟨ng, _, hpure⟩ := hp
  cases hpure
  rfl

theorem stepN_genCount :
    ∀ (n : Nat) (l l2 : Life), Life.stepN n l = some l2 →
      l2.genCount = l.genCount + n
  | 0, l, l2, h => by
    simp only [Life.stepN] at h
    cases h
    omega
  | n + 1, l, l2, h => by
    simp only [Life.stepN, Option.bind_eq_bind] at h
    rw [Option.bind_eq_some] at h
    obtain ⟨l1, hstep, hrest⟩ := h
    have h1 := step_genCount l l1 hstep
    have h2 := stepN_genCount n l1 l2 hrest
    omega

/-! ## Helper lemmas for `NewField` -/

theorem mapM_const_some {α β : Type} (l : List α) (v : β) :
    l.mapM (fun _ => (some v : Option β)) = some (List.replicate l.length v) := by
  rw [← List.mapM'_eq_mapM]
  induction l with
  | nil => rfl
  | cons a t ih =>
    simp only [List.mapM', ih, Option.bind_eq_bind, Option.some_bind,
      Option.pure_def]
    simp [List.replicate_succ]

theorem getD_replicate_lt {α : Type} {n i : Nat} (v d : α) (h : i < n) :
    (List.replicate n v).getD i d = v := by
  induction n generalizing i with
  | zero => omega
  | succ m ih =>
    cases i with
    | zero => rfl
    | succ j =>
      rw [List.replicate_succ, List.getD_cons_succ]
      exact ih (by omega)

theorem getD_of_le {α : Type} {l : List α} {i : Nat} (d : α)
    (h : l.length ≤ i) : l.getD i d = d := by
  simp [List.getD_eq_getElem?_getD, List.getElem?_eq_none h]

theorem NewField_eq (w h : Int) (hw : 0 ≤ w) (hh : 0 ≤ h) :
    NewField w h = some (Field.mk
      (List.replicate h.toNat (List.replicate w.toNat false)) w h) := by
  unfold NewField goMake
  rw [if_pos hh]
  simp only [Option.bind_eq_bind, Option.some_bind]
  have hf : (fun (_ : List Bool) =>
      if 0 ≤ w then some (List.replicate w.toNat false) else none)
      = (fun (_ : List Bool) => some (List.replicate w.toNat false)) := by
    funext z
    rw [if_pos hw]
  rw [hf, mapM_const_some, List.length_replicate, Option.some_bind]
  rfl

theorem NewField_neg_height (w h : Int) (hh : h < 0) :
    NewField w h = none := by
  unfold NewField goMake
  rw [if_neg (by omega)]
  rfl

theorem NewField_neg_width (w h : Int) (hw : w < 0) (hh : 0 < h) :
    NewField w h = none := by
  unfold NewField goMake
  rw [if_pos (by omega)]
  simp only [Option.bind_eq_bind, Option.some_bind]
  have h1 : h.toNat = (h.toNat - 1) + 1 := by omega
  have h2 : (if (0 : Int) ≤ w then some (List.replicate w.toNat false)
      else none) = none := by
    rw [if_neg (by omega)]
  rw [h1, List.replicate_succ, ← List.mapM'_eq_mapM]
  simp [List.mapM', h2]

theorem newfield_props (w h : Int) (hw : 0 < w) (hh : 0 < h) :
    ∃ f, NewField w h = some f ∧ f.WellFormed ∧ f.width = w ∧
      f.height = h ∧ ∀ x y : Int, storedAt f x y = false := by
  refine ⟨Field.mk (List.replicate h.toNat (List.replicate w.toNat false))
    w h, NewField_eq w h (by omega) (by omega), ?_, rfl, rfl, ?_⟩
  · refine ⟨hw, hh, by simp, ?_⟩
    intro i hi
    rw [getD_replicate_lt _ _ hi]
    simp
  · intro x y
    unfold storedAt
    by_cases hy : y.toNat < h.toNat
    · rw [getD_replicate_lt _ _ hy]
      by_cases hx : x.toNat < w.toNat
      · rw [getD_replicate_lt _ _ hx]
      · rw [getD_of_le false (by rw [List.length_replicate]; omega)]
    · rw [getD_of_le [] (by rw [List.length_replicate]; omega)]
      rfl

/-! ## Claim C3 -/

/-- Claim C3 counterexample: `Field.alive` does not accept every integer
pair.  On a well-formed all-dead 3 by 3 field, `alive(-4, 0)` panics (the
single `x += w` shift leaves `-1`, and Go's truncated `%` keeps it
negative), so it does not return the stored state at the wrapped
coordinate `((-4 % 3) + 3) % 3 = 2` as the claim requires. -/
theorem C3_alive_cex : exF3.WellFormed ∧
    exF3.alive (-4) 0 = none ∧
    exF3.alive (-4) 0 ≠
      some (storedAt exF3 (specWrap (-4) exF3.width)
        (specWrap 0 exF3.height)) := by
  decide

/-- Claim C3 amended: `Field.alive` does not accept every integer pair.
For every well-formed field (positive width and height) and all integers
`x ≥ -width` and `y ≥ -height` — in particular every coordinate the
neighbor loops produce — it succeeds and returns the stored state at the
toroidally wrapped coordinate
`(((x % width) + width) % width, ((y % height) + height) % height)`.
Beyond that range it is not total: the single `+= width` shift before
Go's truncated `%` can leave a negative index, as `alive(-4, 0)` on a
3 by 3 field shows. -/
theorem C3_alive_amended (f : Field) (hf : f.WellFormed) (x y : Int)
    (hx : -f.width ≤ x) (hy : -f.height ≤ y) :
    f.alive x y = some (storedAt f (specWrap x f.width)
      (specWrap y f.height)) := by
  have h := alive_eq_specAlive f hf x y hx hy
  unfold specAlive at h
  exact h

/-- Witness for the amended claim C3 at a concrete input. -/
theorem C3_alive_witness : exF3.WellFormed ∧
    exF3.alive (-1) 2 = some (storedAt exF3 (specWrap (-1) exF3.width)
      (specWrap 2 exF3.height)) :=
  ⟨by decide, C3_alive_amended exF3 (by decide) (-1) 2 (by decide)
    (by decide)⟩

/-! ## Claim C4 -/

/-- Claim C4 (code bug): `Field.contains` compares only against the upper
bounds, so a location with a negative coordinate passes the bounds check
and `Field.set` then panics on the slice index instead of reporting and
ignoring the out-of-range input.  Evaluated at the failing input:
a 3 by 3 field and location (X = -1, Y = 0). -/
theorem C4_set_negative_panics :
    exF3.contains (FieldLocation.mk (-1) 0) = true ∧
    exF3.set (FieldLocation.mk (-1) 0) true = none ∧
    exF3.set (FieldLocation.mk (-1) 0) true ≠ some exF3 := by
  decide

/-! ## Claim C5 -/

/-- Claim C5: calling `next()` when `hasNext()` is false is fatal for
every provider variant: the `Seeder` template guarding every provider
halts (`log.Fatal`, modelled as `none`) without returning a coordinate,
and the file-backed provider's own `NextLocation` likewise panics on its
slice access instead of returning a coordinate. -/
theorem C5_next_contract :
    (∀ s : Seeder, s.provider.MoreLocations = false →
      s.nextLocation = none) ∧
    (∀ f : FileLocationProvider, f.MoreLocations = false →
      f.NextLocation = none) := by
  constructor
  · intro s h
    unfold Seeder.nextLocation
    rw [if_pos h]
  · intro f h
    unfold FileLocationProvider.MoreLocations at h
    have hlen : ¬(f.i < (f.locs.length : Int)) := by
      simpa using h
    have hgi : goIndex f.locs f.i = none := by
      unfold goIndex
      by_cases h0 : 0 ≤ f.i
      · rw [if_pos h0]
        refine List.get?_eq_none.mpr ?_
        omega
      · rw [if_neg h0]
    unfold FileLocationProvider.NextLocation
    rw [hgi]
    rfl

/-- Witness for claim C5: an exhausted file-backed provider. -/
theorem C5_next_contract_witness :
    (Seeder.mk (LocationProvider.file emptyFLP)).provider.MoreLocations
      = false ∧
    (Seeder.mk (LocationProvider.file emptyFLP)).nextLocation = none ∧
    emptyFLP.NextLocation = none :=
  ⟨rfl, C5_next_contract.1 (Seeder.mk (LocationProvider.file emptyFLP)) rfl,
    C5_next_contract.2 emptyFLP rfl⟩

/-! ## Claim C6 -/

/-- Claim C6 counterexample: `NewField` performs no validation at all.
With width 0 (≤ 0) and height 5 it does not fail with an error value: it
returns a degenerate field of five empty rows. -/
theorem C6_newfield_cex :
    NewField 0 5 = some (Field.mk (List.replicate 5 []) 0 5) := by
  decide

/-- Claim C6 amended: for positive dimensions `NewField` returns a
well-formed field with all cells dead, as claimed; but for `width ≤ 0` or
`height ≤ 0` it never produces an error value — zero dimensions yield a
degenerate field, and negative dimensions panic at `make`. -/
theorem C6_newfield_amended :
    (∀ w h : Int, 0 < w → 0 < h → ∃ f, NewField w h = some f ∧
      f.WellFormed ∧ f.width = w ∧ f.height = h ∧
      ∀ x y : Int, storedAt f x y = false) ∧
    (∀ w h : Int, h < 0 ∨ (w < 0 ∧ 0 < h) → NewField w h = none) := by
  constructor
  · intro w h hw hh
    exact newfield_props w h hw hh
  · intro w h hcase
    rcases hcase with hh | ⟨hw, hh⟩
    · exact NewField_neg_height w h hh
    · exact NewField_neg_width w h hw hh

/-- Witness for the amended claim C6 at concrete dimensions. -/
theorem C6_newfield_witness :
    (∃ f, NewField 2 3 = some f ∧ f.WellFormed ∧ f.width = 2 ∧
      f.height = 3 ∧ ∀ x y : Int, storedAt f x y = false) ∧
    NewField 2 (-1) = none :=
  ⟨C6_newfield_amended.1 2 3 (by decide) (by decide),
    C6_newfield_amended.2 2 (-1) (Or.inl (by decide))⟩

/-! ## Claim C1 -/

/-- Claim C1: for every well-formed field and every in-range coordinate,
`Field.next` returns alive exactly when the number of live cells among
the 8 toroidal neighbors of `(x, y)` (the cell itself excluded) equals 3,
or equals 2 with the cell currently alive; every other neighbor count
yields dead regardless of the cell's own state. -/
theorem C1_next_rule (f : Field) (hf : f.WellFormed) (x y : Int)
    (hx0 : 0 ≤ x) (hx : x < f.width) (hy0 : 0 ≤ y) (hy : y < f.height) :
    (f.next x y = some true ↔
      (specNeighborCount f x y = 3 ∨
        (specNeighborCount f x y = 2 ∧ storedAt f x y = true))) ∧
    (specNeighborCount f x y ≠ 3 → specNeighborCount f x y ≠ 2 →
      f.next x y = some false) := by
  have hns := next_eq_nextSpec f hf x y hx0 hx hy0 hy
  have hsa : specAlive f x y = storedAt f x y := by
    unfold specAlive
    rw [specWrap_eq_self x f.width hx0 hx,
      specWrap_eq_self y f.height hy0 hy]
  constructor
  · rw [hns]
    unfold nextSpec
    rw [hsa]
    simp [Bool.or_eq_true, Bool.and_eq_true, beq_iff_eq]
  · intro h3 h2
    rw [hns]
    unfold nextSpec
    simp [h3, h2]

/-- Witness for claim C1: the live corner of a block pattern. -/
theorem C1_next_rule_witness :
    blockF.WellFormed ∧
    ((blockF.next 1 1 = some true ↔
      (specNeighborCount blockF 1 1 = 3 ∨
        (specNeighborCount blockF 1 1 = 2 ∧ storedAt blockF 1 1 = true))) ∧
    (specNeighborCount blockF 1 1 ≠ 3 → specNeighborCount blockF 1 1 ≠ 2 →
      blockF.next 1 1 = some false)) :=
  ⟨by decide, C1_next_rule blockF (by decide) 1 1 (by decide) (by decide)
    (by decide) (by decide)⟩

/-! ## Claim C2 -/

/-- Claim C2: on every well-formed simulation, `step()` succeeds, writes
`nextState` of the pre-step current buffer into every in-range cell of the
new current buffer, hands the pre-step current buffer over as the new
next-generation buffer unchanged (ownership exchange, no data copy, sizes
preserved), and increments the generation counter by exactly one; hence
`n` steps from a generation-0 state leave the counter at `n`. -/
theorem C2_step_spec (l : Life) (hl : l.WF) :
    (∃ l2, l.step = some l2 ∧
      (∀ x y : Int, 0 ≤ x → x < l.width → 0 ≤ y → y < l.height →
        storedAt l2.thisGen x y = nextSpec l.thisGen x y) ∧
      l2.nextGen = l.thisGen ∧
      l2.thisGen.width = l.width ∧ l2.thisGen.height = l.height ∧
      l2.genCount = l.genCount + 1) ∧
    (∀ (n : Nat) (l2 : Life), l.genCount = 0 →
      Life.stepN n l = some l2 → l2.genCount = n) := by
  constructor
  · obtain ⟨l2, hstep, hwf, hW, hH, hng, hgc, htw, hth, hcell⟩ :=
      step_eq l hl
    exact ⟨l2, hstep, fun x y hx0 hx hy0 hy => hcell x y hx0 hx hy0 hy,
      hng, htw, hth, hgc⟩
  · intro n l2 h0 hn
    have h := stepN_genCount n l l2 hn
    omega

/-- Witness for claim C2: a 2 by 2 all-dead simulation. -/
theorem C2_step_spec_witness :
    exLife.WF ∧
    ((∃ l2, exLife.step = some l2 ∧
      (∀ x y : Int, 0 ≤ x → x < exLife.width → 0 ≤ y → y < exLife.height →
        storedAt l2.thisGen x y = nextSpec exLife.thisGen x y) ∧
      l2.nextGen = exLife.thisGen ∧
      l2.thisGen.width = exLife.width ∧ l2.thisGen.height = exLife.height ∧
      l2.genCount = exLife.genCount + 1) ∧
    (∀ (n : Nat) (l2 : Life), exLife.genCount = 0 →
      Life.stepN n exLife = some l2 → l2.genCount = n)) :=
  ⟨by decide, C2_step_spec exLife (by decide)⟩

/-! ## Parser lemmas for claims C7, C8 and C9 -/

theorem ignorable_false (line : List Char)
    (hhash : line.head? ≠ some '#')
    (hcolon : line.contains ':' = true) :
    ignorable line = false := by
  unfold ignorable
  rw [beq_eq_false_iff_ne.mpr hhash, hcolon]
  rfl

theorem parseConfigLine_num_header (line hdr marks : List Char)
    (lastRow co y : Int)
    (hhash : line.head? ≠ some '#')
    (hcolon : line.contains ':' = true)
    (hsplit : line.splitOn ':' = [hdr, marks])
    (hnum : Atoi hdr = some y) :
    parseConfigLine line lastRow co =
      (toFieldLocations (parseConfigLineSettings (trimRight marks)) y co,
        y, co) := by
  have hgt : hdr ≠ ['>', '>'] := by
    intro hcontra
    rw [hcontra] at hnum
    have hnone : Atoi ['>', '>'] = none := by decide
    rw [hnone] at hnum
    cases hnum
  have hpp : hdr ≠ ['+', '+'] := by
    intro hcontra
    rw [hcontra] at hnum
    have hnone : Atoi ['+', '+'] = none := by decide
    rw [hnone] at hnum
    cases hnum
  unfold parseConfigLine
  rw [ignorable_false line hhash hcolon]
  simp only [Bool.false_eq_true, if_false, hsplit]
  rw [if_neg hgt, if_neg hpp, hnum]
  by_cases hc : parseConfigLineSettings (trimRight marks) = []
  · simp [hc, toFieldLocations]
  · simp [hc]

theorem parseConfigLine_plus_header (line marks : List Char)
    (lastRow co : Int)
    (hhash : line.head? ≠ some '#')
    (hcolon : line.contains ':' = true)
    (hsplit : line.splitOn ':' = [['+', '+'], marks]) :
    parseConfigLine line lastRow co =
      (toFieldLocations (parseConfigLineSettings (trimRight marks))
        (lastRow + 1) co, lastRow + 1, co) := by
  unfold parseConfigLine
  rw [ignorable_false line hhash hcolon]
  simp only [Bool.false_eq_true, if_false, hsplit]
  by_cases hc : parseConfigLineSettings (trimRight marks) = []
  · simp [hc, toFieldLocations]
  · simp [hc]

theorem mem_parseConfigLineSettings (s : List Char) (i : Nat) :
    i ∈ parseConfigLineSettings s ↔
      ∃ c, s.get? i = some c ∧ c ≠ ' ' := by
  unfold parseConfigLineSettings
  constructor
  · intro h
    obtain ⟨p, hpf, hpi⟩ := List.mem_map.mp h
    obtain ⟨hpe, hq⟩ := List.mem_filter.mp hpf
    obtain ⟨j, c⟩ := p
    simp only at hpi
    subst hpi
    have hg := List.mk_mem_enum_iff_get?.mp hpe
    refine ⟨c, hg, ?_⟩
    simpa [bne_iff_ne] using hq
  · rintro ⟨c, hget, hc⟩
    refine List.mem_map.mpr ⟨(i, c), List.mem_filter.mpr ⟨?_, ?_⟩, rfl⟩
    · exact List.mk_mem_enum_iff_get?.mpr hget
    · simpa [bne_iff_ne] using hc

theorem mem_toFieldLocations (marks : List Char) (y co : Int)
    (loc : FieldLocation) :
    loc ∈ toFieldLocations (parseConfigLineSettings marks) y co ↔
      (loc.Y = y ∧ ∃ i : Nat, loc.X = Int.ofNat i + co ∧
        ∃ c, marks.get? i = some c ∧ c ≠ ' ') := by
  unfold toFieldLocations
  constructor
  · intro h
    obtain ⟨i, hi, hloc⟩ := List.mem_map.mp h
    have hmem := (mem_parseConfigLineSettings marks i).mp hi
    subst hloc
    exact ⟨rfl, i, rfl, hmem⟩
  · rintro ⟨hY, i, hX, hmem⟩
    refine List.mem_map.mpr
      ⟨i, (mem_parseConfigLineSettings marks i).mpr hmem, ?_⟩
    obtain ⟨x, y2⟩ := loc
    simp only at hY hX
    rw [hY, hX]

/-! ## Claim C7 -/

/-- Claim C7 counterexample: on a line containing a second colon the code
scans only the text between the first and second colon, not the whole
substring after the first colon.  For `"1:@:@"` the code produces the
single location (0, 1), while scanning the trimmed substring after the
first colon (`"@:@"`, three non-space characters) would mark columns
0, 1 and 2. -/
theorem C7_marks_cex :
    (parseConfigLine ['1', ':', '@', ':', '@'] 0 0).1 =
      [FieldLocation.mk 0 1] ∧
    toFieldLocations (parseConfigLineSettings
        (trimRight (specAfterFirstColon ['1', ':', '@', ':', '@']))) 1 0 =
      [FieldLocation.mk 0 1, FieldLocation.mk 1 1, FieldLocation.mk 2 1] ∧
    (parseConfigLine ['1', ':', '@', ':', '@'] 0 0).1 ≠
      toFieldLocations (parseConfigLineSettings
        (trimRight (specAfterFirstColon ['1', ':', '@', ':', '@']))) 1 0 := by
  decide

/-- Claim C7 amended: the marks are taken from the text between the first
and the second `:` (equivalently, the substring after the first `:` on
the lines with exactly one colon), trailing whitespace trimmed; character
index `i` (0-based) marks column `i + columnOffset` alive when it is a
non-space character and is skipped when it is a space.  For a numeric
header the row is the parsed number, for `++` it is `lastRow + 1`.  The
two-line example parses to exactly the coordinates (0,1), (2,1), (1,2). -/
theorem C7_marks_amended :
    (∀ (line hdr marks : List Char) (lastRow co y : Int),
      line.head? ≠ some '#' → line.contains ':' = true →
      line.splitOn ':' = [hdr, marks] → Atoi hdr = some y →
      parseConfigLine line lastRow co =
        (toFieldLocations (parseConfigLineSettings (trimRight marks)) y co,
          y, co)) ∧
    (∀ (line marks : List Char) (lastRow co : Int),
      line.head? ≠ some '#' → line.contains ':' = true →
      line.splitOn ':' = [['+', '+'], marks] →
      parseConfigLine line lastRow co =
        (toFieldLocations (parseConfigLineSettings (trimRight marks))
          (lastRow + 1) co, lastRow + 1, co)) ∧
    (∀ (marks : List Char) (y co : Int) (loc : FieldLocation),
      loc ∈ toFieldLocations (parseConfigLineSettings marks) y co ↔
        (loc.Y = y ∧ ∃ i : Nat, loc.X = Int.ofNat i + co ∧
          ∃ c, marks.get? i = some c ∧ c ≠ ' ')) ∧
    NewFileLocationProvider []
        [['0', '1', ':', '@', ' ', '@'], ['+', '+', ':', ' ', '@', ' ']] 0 =
      Except.ok (FileLocationProvider.mk [] 0 3 3
        [FieldLocation.mk 0 1, FieldLocation.mk 2 1, FieldLocation.mk 1 2],
        0) := by
  refine ⟨parseConfigLine_num_header, parseConfigLine_plus_header,
    mem_toFieldLocations, ?_⟩
  rfl

/-- Witness for the amended claim C7: the first example line parsed with
a nonzero carried row and offset 0. -/
theorem C7_marks_witness :
    parseConfigLine ['0', '1', ':', '@', ' ', '@'] 7 0 =
      (toFieldLocations (parseConfigLineSettings
        (trimRight ['@', ' ', '@'])) 1 0, 1, 0) :=
  C7_marks_amended.1 ['0', '1', ':', '@', ' ', '@'] ['0', '1']
    ['@', ' ', '@'] 7 0 1 (by decide) (by decide) (by decide) (by decide)

/-! ## Claim C8 -/

/-- Claim C8 counterexample: `columnOffset` is a package-level variable
that no parse resets.  A first parse of `">>:3"` leaves the global at 3;
a second parse of `"0:@"` in the same process then starts with offset 3
and yields the location (3, 0), while a parse starting at 0 yields (0, 0):
the `>>:` setting of one parse carries into the next parse. -/
theorem C8_offset_cex :
    NewFileLocationProvider [] [['>', '>', ':', '3']] 0 =
      Except.ok (FileLocationProvider.mk [] 0 1 1 [], 3) ∧
    NewFileLocationProvider [] [['0', ':', '@']] 3 =
      Except.ok (FileLocationProvider.mk [] 0 4 1
        [FieldLocation.mk 3 0], 3) ∧
    NewFileLocationProvider [] [['0', ':', '@']] 0 =
      Except.ok (FileLocationProvider.mk [] 0 1 1
        [FieldLocation.mk 0 0], 0) ∧
    FieldLocation.mk 3 0 ≠ FieldLocation.mk 0 0 :=
  ⟨rfl, rfl, rfl, by decide⟩

/-- Claim C8 amended: `columnOffset` is a package-level global that is 0
only at process start; every parse begins with whatever value the global
currently holds and leaves its final value behind for later parses.
Parsing the line `"0:@"` with an entering offset `co ≥ 0` marks column
`co` of row 0 and returns with the offset still `co`. -/
theorem C8_offset_amended (path : List Char) (co : Int) (hco : 0 ≤ co) :
    NewFileLocationProvider path [['0', ':', '@']] co =
      Except.ok (FileLocationProvider.mk path 0 (co + 1) 1
        [FieldLocation.mk co 0], co) := by
  have hp : parseConfigLine ['0', ':', '@'] 0 co =
      ([FieldLocation.mk co 0], 0, co) := by
    rw [parseConfigLine_num_header ['0', ':', '@'] ['0'] ['@'] 0 co 0
      (by decide) (by decide) (by decide) (by decide)]
    have hcols : parseConfigLineSettings (trimRight ['@']) = [0] := by
      decide
    rw [hcols]
    unfold toFieldLocations
    simp
  unfold NewFileLocationProvider
  rw [if_neg (by simp)]
  simp only [List.foldl_cons, List.foldl_nil, parseStep, hp]
  have hmax : maxCol 0 [FieldLocation.mk co 0] = co := by
    unfold maxCol
    simp only [List.foldl_cons, List.foldl_nil]
    by_cases h : co > 0
    · rw [if_pos h]
    · rw [if_neg h]
      omega
  simp [hmax]

/-- Witness for the amended claim C8: a parse entered with the global at
3 places the mark at column 3. -/
theorem C8_offset_witness :
    NewFileLocationProvider [] [['0', ':', '@']] 3 =
      Except.ok (FileLocationProvider.mk [] 0 4 1
        [FieldLocation.mk 3 0], 3) :=
  C8_offset_amended [] 3 (by decide)

/-! ## Claim C9 -/

/-- Claim C9 counterexample: in the current parser revision the carried
row starts at 0, not -1, so a file whose first directive is `"++:@"`
places its mark on row 1, not row 0 as the claim states. -/
theorem C9_leading_row_cex :
    NewFileLocationProvider [] [['+', '+', ':', '@']] 0 =
      Except.ok (FileLocationProvider.mk [] 0 1 2
        [FieldLocation.mk 0 1], 0) ∧
    (FieldLocation.mk 0 1).Y ≠ 0 :=
  ⟨rfl, by decide⟩

/-- Claim C9 amended: the parser used by the program (the single-argument
`NewFileLocationProvider`) initializes the carried row to 0, so a leading
`++:` directive resolves to row 1; the older revisions (such as
`fileseeder.go`) initialize the row to -1 and resolve a leading `++:` to
row 0. -/
theorem C9_leading_row_amended :
    NewFileLocationProvider [] [['+', '+', ':', '@']] 0 =
      Except.ok (FileLocationProvider.mk [] 0 1 2
        [FieldLocation.mk 0 1], 0) ∧
    GoLifeOld.NewFileLocationProvider [['+', '+', ':', '@']] 30 30 0 =
      some (GoLifeOld.FileLocationProvider.mk 30 30 0
        [FieldLocation.mk 0 0], 0) :=
  ⟨rfl, rfl⟩

/-! ## Generic lemmas for the blinker analysis -/

theorem length_filter_cons {α : Type} (q : α → Bool) (a : α) (l : List α) :
    (List.filter q (a :: l)).length =
      (q a).toNat + (List.filter q l).length := by
  cases h : q a <;> simp [List.filter_cons, h] <;> omega

theorem decide_toNat_cases (P : Prop) [inst : Decidable P] :
    ((decide P).toNat = 1 ∧ P) ∨ ((decide P).toNat = 0 ∧ ¬P) := by
  by_cases h : P
  · left
    simp [h]
  · right
    simp [h]

theorem emod_neg_one (w : Int) (hw : 0 < w) : Int.emod (-1) w = w - 1 := by
  have h1 := Int.add_mul_emod_self_left (-1) w 1
  have h2 : -1 + w * 1 = w - 1 := by ring
  rw [h2] at h1
  rw [Int.emod_eq_of_lt (by omega) (by omega)] at h1
  exact h1.symm

theorem emod_shift_cases (x dx w : Int) (hw : 5 ≤ w) (hx0 : 0 ≤ x)
    (hxw : x < w) (hdx1 : -1 ≤ dx) (hdx2 : dx ≤ 1) :
    Int.emod (x + dx) w = x + dx ∨
      (x + dx = -1 ∧ Int.emod (x + dx) w = w - 1) ∨
      (x + dx = w ∧ Int.emod (x + dx) w = 0) := by
  by_cases hc1 : x + dx < 0
  · right; left
    have hval : x + dx = -1 := by omega
    rw [hval]
    exact ⟨rfl, emod_neg_one w (by omega)⟩
  · by_cases hc2 : x + dx < w
    · left
      exact Int.emod_eq_of_lt (by omega) hc2
    · right; right
      have hval : x + dx = w := by omega
      rw [hval]
      exact ⟨rfl, Int.emod_self⟩

theorem storedAt_out_of_range (f : Field) (hf : f.WellFormed) (a c : Int)
    (ha : 0 ≤ a) (hc : 0 ≤ c) (h : f.width ≤ a ∨ f.height ≤ c) :
    storedAt f a c = false := by
  obtain ⟨hw, hh, hlen, hrows⟩ := hf
  unfold storedAt
  rcases h with h | h
  · by_cases hcr : c.toNat < f.height.toNat
    · rw [getD_of_le false (by rw [hrows c.toNat hcr]; omega)]
    · rw [getD_of_le [] (by omega)]
      rfl
  · rw [getD_of_le [] (by omega)]
    rfl

theorem bool_eq_decide (b : Bool) (P : Prop) [inst : Decidable P]
    (h : b = true ↔ P) : b = decide P := by
  cases hb : b
  · symm
    rw [decide_eq_false_iff_not]
    intro hp
    have hcontra := h.mpr hp
    rw [hb] at hcontra
    cases hcontra
  · symm
    rw [decide_eq_true_eq]
    exact h.mp hb

theorem list_eq_of_getD {α : Type} (d : α) :
    ∀ (l1 l2 : List α), l1.length = l2.length →
      (∀ i, l1.getD i d = l2.getD i d) → l1 = l2
  | [], [], _, _ => rfl
  | a :: t1, b :: t2, hlen, hget => by
    have h0 := hget 0
    simp only [List.getD_cons_zero] at h0
    have ht := list_eq_of_getD d t1 t2 (by simpa using hlen)
      (fun i => by simpa [List.getD_cons_succ] using hget (i + 1))
    rw [h0, ht]
  | [], b :: t2, hlen, _ => by simp at hlen
  | a :: t1, [], hlen, _ => by simp at hlen

theorem field_ext_stored (f g : Field) (hf : f.WellFormed)
    (hg : g.WellFormed) (hw : f.width = g.width) (hh : f.height = g.height)
    (hcell : ∀ a c : Int, 0 ≤ a → 0 ≤ c → storedAt f a c = storedAt g a c) :
    f = g := by
  obtain ⟨fs, fw, fh⟩ := f
  obtain ⟨gs, gw, gh⟩ := g
  obtain ⟨hfw, hfh, hflen, hfrows⟩ := hf
  obtain ⟨hgw, hgh, hglen, hgrows⟩ := hg
  simp only at hw hh hcell hfw hfh hflen hfrows hgw hgh hglen hgrows ⊢
  subst hw hh
  have hstate : fs = gs := by
    apply list_eq_of_getD []
    · rw [hflen, hglen]
    · intro i
      by_cases hi : i < fh.toNat
      · apply list_eq_of_getD false
        · rw [hfrows i hi, hgrows i hi]
        · intro j
          by_cases hj : j < fw.toNat
          · have hc := hcell (j : Int) (i : Int) (by omega) (by omega)
            unfold storedAt at hc
            simpa using hc
          · rw [getD_of_le false (by rw [hfrows i hi]; omega),
              getD_of_le false (by rw [hgrows i hi]; omega)]
      · rw [getD_of_le [] (by omega), getD_of_le [] (by omega)]
  rw [hstate]

/-! ## The next-state rule on the two blinker patterns

On any well-formed field of dimensions at least 5 by 5 whose live cells
are exactly the horizontal blinker row (cells `(a, 2)` for `1 ≤ a ≤ 3`),
the next state of every in-range cell is the vertical blinker column
(cells `(2, c)` for `1 ≤ c ≤ 3`), and conversely. -/

set_option maxHeartbeats 2000000 in
theorem nextSpec_hor (f : Field) (hf : f.WellFormed)
    (hw : 5 ≤ f.width) (hh : 5 ≤ f.height)
    (hcells : ∀ a c : Int, 0 ≤ a → 0 ≤ c →
      storedAt f a c = decide (c = 2 ∧ 1 ≤ a ∧ a ≤ 3))
    (x y : Int) (hx0 : 0 ≤ x) (hx : x < f.width) (hy0 : 0 ≤ y)
    (hy : y < f.height) :
    nextSpec f x y = decide (x = 2 ∧ 1 ≤ y ∧ y ≤ 3) := by
  have hentry : ∀ dx dy : Int, -1 ≤ dx → dx ≤ 1 → -1 ≤ dy → dy ≤ 1 →
      specAlive f (x + dx) (y + dy) =
        decide (y + dy = 2 ∧ 1 ≤ x + dx ∧ x + dx ≤ 3) := by
    intro dx dy hdx1 hdx2 hdy1 hdy2
    unfold specAlive
    rw [specWrap_eq_emod _ _ (by omega), specWrap_eq_emod _ _ (by omega)]
    obtain ⟨hxm0, hxm1⟩ := emod_nonneg_lt (x + dx) f.width (by omega)
    obtain ⟨hym0, hym1⟩ := emod_nonneg_lt (y + dy) f.height (by omega)
    rw [hcells _ _ hxm0 hym0, decide_eq_decide]
    rcases emod_shift_cases x dx f.width hw hx0 hx hdx1 hdx2 with
      hex | ⟨hvx, hex⟩ | ⟨hvx, hex⟩ <;>
      rcases emod_shift_cases y dy f.height hh hy0 hy hdy1 hdy2 with
        hey | ⟨hvy, hey⟩ | ⟨hvy, hey⟩ <;>
      rw [hex, hey] <;> omega
  have hself : specAlive f x y = decide (y = 2 ∧ 1 ≤ x ∧ x ≤ 3) := by
    unfold specAlive
    rw [specWrap_eq_self x f.width hx0 hx,
      specWrap_eq_self y f.height hy0 hy]
    exact hcells x y hx0 hy0
  have hcount : specNeighborCount f x y =
      (neighborOffsets.filter (fun p =>
        decide (y + p.2 = 2 ∧ 1 ≤ x + p.1 ∧ x + p.1 ≤ 3))).length := by
    unfold specNeighborCount
    congr 1
    apply List.filter_congr
    intro p hp
    fin_cases hp <;>
      exact hentry _ _ (by decide) (by decide) (by decide) (by decide)
  unfold nextSpec
  rw [hcount, hself, Bool.eq_iff_iff]
  simp only [neighborOffsets, length_filter_cons, List.filter_nil,
    List.length_nil, Bool.or_eq_true, Bool.and_eq_true, beq_iff_eq,
    decide_eq_true_eq]
  have h1 := decide_toNat_cases (y + -1 = 2 ∧ 1 ≤ x + -1 ∧ x + -1 ≤ 3)
  have h2 := decide_toNat_cases (y + 0 = 2 ∧ 1 ≤ x + -1 ∧ x + -1 ≤ 3)
  have h3 := decide_toNat_cases (y + 1 = 2 ∧ 1 ≤ x + -1 ∧ x + -1 ≤ 3)
  have h4 := decide_toNat_cases (y + -1 = 2 ∧ 1 ≤ x + 0 ∧ x + 0 ≤ 3)
  have h5 := decide_toNat_cases (y + 1 = 2 ∧ 1 ≤ x + 0 ∧ x + 0 ≤ 3)
  have h6 := decide_toNat_cases (y + -1 = 2 ∧ 1 ≤ x + 1 ∧ x + 1 ≤ 3)
  have h7 := decide_toNat_cases (y + 0 = 2 ∧ 1 ≤ x + 1 ∧ x + 1 ≤ 3)
  have h8 := decide_toNat_cases (y + 1 = 2 ∧ 1 ≤ x + 1 ∧ x + 1 ≤ 3)
  omega

set_option maxHeartbeats 2000000 in
theorem nextSpec_vert (f : Field) (hf : f.WellFormed)
    (hw : 5 ≤ f.width) (hh : 5 ≤ f.height)
    (hcells : ∀ a c : Int, 0 ≤ a → 0 ≤ c →
      storedAt f a c = decide (a = 2 ∧ 1 ≤ c ∧ c ≤ 3))
    (x y : Int) (hx0 : 0 ≤ x) (hx : x < f.width) (hy0 : 0 ≤ y)
    (hy : y < f.height) :
    nextSpec f x y = decide (y = 2 ∧ 1 ≤ x ∧ x ≤ 3) := by
  have hentry : ∀ dx dy : Int, -1 ≤ dx → dx ≤ 1 → -1 ≤ dy → dy ≤ 1 →
      specAlive f (x + dx) (y + dy) =
        decide (x + dx = 2 ∧ 1 ≤ y + dy ∧ y + dy ≤ 3) := by
    intro dx dy hdx1 hdx2 hdy1 hdy2
    unfold specAlive
    rw [specWrap_eq_emod _ _ (by omega), specWrap_eq_emod _ _ (by omega)]
    obtain ⟨hxm0, hxm1⟩ := emod_nonneg_lt (x + dx) f.width (by omega)
    obtain ⟨hym0, hym1⟩ := emod_nonneg_lt (y + dy) f.height (by omega)
    rw [hcells _ _ hxm0 hym0, decide_eq_decide]
    rcases emod_shift_cases x dx f.width hw hx0 hx hdx1 hdx2 with
      hex | ⟨hvx, hex⟩ | ⟨hvx, hex⟩ <;>
      rcases emod_shift_cases y dy f.height hh hy0 hy hdy1 hdy2 with
        hey | ⟨hvy, hey⟩ | ⟨hvy, hey⟩ <;>
      rw [hex, hey] <;> omega
  have hself : specAlive f x y = decide (x = 2 ∧ 1 ≤ y ∧ y ≤ 3) := by
    unfold specAlive
    rw [specWrap_eq_self x f.width hx0 hx,
      specWrap_eq_self y f.height hy0 hy]
    exact hcells x y hx0 hy0
  have hcount : specNeighborCount f x y =
      (neighborOffsets.filter (fun p =>
        decide (x + p.1 = 2 ∧ 1 ≤ y + p.2 ∧ y + p.2 ≤ 3))).length := by
    unfold specNeighborCount
    congr 1
    apply List.filter_congr
    intro p hp
    fin_cases hp <;>
      exact hentry _ _ (by decide) (by decide) (by decide) (by decide)
  unfold nextSpec
  rw [hcount, hself, Bool.eq_iff_iff]
  simp only [neighborOffsets, length_filter_cons, List.filter_nil,
    List.length_nil, Bool.or_eq_true, Bool.and_eq_true, beq_iff_eq,
    decide_eq_true_eq]
  have h1 := decide_toNat_cases (x + -1 = 2 ∧ 1 ≤ y + -1 ∧ y + -1 ≤ 3)
  have h2 := decide_toNat_cases (x + -1 = 2 ∧ 1 ≤ y + 0 ∧ y + 0 ≤ 3)
  have h3 := decide_toNat_cases (x + -1 = 2 ∧ 1 ≤ y + 1 ∧ y + 1 ≤ 3)
  have h4 := decide_toNat_cases (x + 0 = 2 ∧ 1 ≤ y + -1 ∧ y + -1 ≤ 3)
  have h5 := decide_toNat_cases (x + 0 = 2 ∧ 1 ≤ y + 1 ∧ y + 1 ≤ 3)
  have h6 := decide_toNat_cases (x + 1 = 2 ∧ 1 ≤ y + -1 ∧ y + -1 ≤ 3)
  have h7 := decide_toNat_cases (x + 1 = 2 ∧ 1 ≤ y + 0 ∧ y + 0 ≤ 3)
  have h8 := decide_toNat_cases (x + 1 = 2 ∧ 1 ≤ y + 1 ∧ y + 1 ≤ 3)
  omega

/-- Folding `set ... true` over a list of in-range cells: the resulting
field is the original with exactly those cells turned alive. -/
theorem foldl_set_true :
    ∀ (cells : List (Int × Int)) (g : Field), g.WellFormed →
      (∀ p ∈ cells, 0 ≤ p.1 ∧ p.1 < g.width ∧ 0 ≤ p.2 ∧ p.2 < g.height) →
      ∃ f, (cells.foldlM
          (fun f c => f.set (FieldLocation.mk c.1 c.2) true) g) = some f ∧
        f.WellFormed ∧ f.width = g.width ∧ f.height = g.height ∧
        (∀ a c : Int, 0 ≤ a → 0 ≤ c →
          storedAt f a c =
            if (a, c) ∈ cells then true else storedAt g a c)
  | [], g, hg, _ => by
    refine ⟨g, by simp, hg, rfl, rfl, ?_⟩
    intro a c _ _
    simp
  | p :: t, g, hg, hcells => by
    have hp := hcells p (List.mem_cons_self p t)
    obtain ⟨g1, hset, hg1, hg1w, hg1h, hcell⟩ :=
      set_in_range g hg p.1 p.2 true hp.1 hp.2.1 hp.2.2.1 hp.2.2.2
    obtain ⟨f, hfold, hfw, hfwd, hfh, hcell2⟩ :=
      foldl_set_true t g1 hg1
        (fun q hq => by
          have := hcells q (List.mem_cons_of_mem p hq)
          omega)
    refine ⟨f, ?_, hfw, by omega, by omega, ?_⟩
    · rw [List.foldlM_cons]
      simp only [Option.bind_eq_bind] at hfold ⊢
      rw [hset, Option.some_bind]
      exact hfold
    · intro a c ha hc
      rw [hcell2 a c ha hc, hcell a c ha hc]
      by_cases hmem : (a, c) ∈ t
      · simp [hmem, List.mem_cons]
      · by_cases hpq : a = p.1 ∧ c = p.2
        · obtain ⟨hpa, hpc⟩ := hpq
          subst hpa hpc
          simp [hmem, List.mem_cons]
        · have hne : (a, c) ≠ p := by
            intro hcontra
            apply hpq
            rw [← hcontra]
            exact ⟨rfl, rfl⟩
          simp [hmem, hne, List.mem_cons, hpq]

/-! ## Claim C10 -/

theorem mkField_eq (w h : Int) (cells : List (Int × Int)) (hw : 0 < w)
    (hh : 0 < h)
    (hcells : ∀ p ∈ cells, 0 ≤ p.1 ∧ p.1 < w ∧ 0 ≤ p.2 ∧ p.2 < h) :
    ∃ f, mkField w h cells = some f ∧ f.WellFormed ∧ f.width = w ∧
      f.height = h ∧ ∀ a c : Int, 0 ≤ a → 0 ≤ c →
        (storedAt f a c = true ↔ (a, c) ∈ cells) := by
  obtain ⟨f0, hnf, hf0, hf0w, hf0h, hdead⟩ := newfield_props w h hw hh
  obtain ⟨f, hfold, hfwf, hfw, hfh, hcell⟩ := foldl_set_true cells f0 hf0
    (fun p hp => by
      have := hcells p hp
      omega)
  refine ⟨f, ?_, hfwf, by omega, by omega, ?_⟩
  · unfold mkField
    simp only [Option.bind_eq_bind, hnf, Option.some_bind]
    exact hfold
  · intro a c ha hc
    rw [hcell a c ha hc]
    by_cases hmem : (a, c) ∈ cells
    · simp [hmem]
    · simp [hmem, hdead]

theorem mkLife_eq (w h : Int) (cells : List (Int × Int)) (hw : 0 < w)
    (hh : 0 < h)
    (hcells : ∀ p ∈ cells, 0 ≤ p.1 ∧ p.1 < w ∧ 0 ≤ p.2 ∧ p.2 < h) :
    ∃ l, mkLife w h cells = some l ∧ l.WF ∧ l.width = w ∧ l.height = h ∧
      l.genCount = 0 ∧
      (∀ a c : Int, 0 ≤ a → 0 ≤ c →
        (storedAt l.thisGen a c = true ↔ (a, c) ∈ cells)) := by
  obtain ⟨f, hmk, hfwf, hfw, hfh, hcell⟩ := mkField_eq w h cells hw hh hcells
  obtain ⟨g, hnf, hgwf, hgw, hgh, _⟩ := newfield_props w h hw hh
  refine ⟨Life.mk f g w h 0, ?_, ⟨hfwf, hgwf, hfw, hfh, hgw, hgh⟩, rfl, rfl,
    rfl, ?_⟩
  · unfold mkLife
    simp only [Option.bind_eq_bind, hmk, Option.some_bind, hnf,
      Option.pure_def]
  · intro a c ha hc
    exact hcell a c ha hc

/-- Claim C10: on every otherwise-empty toroidal field of width and height
at least 5, the horizontal blinker with live cells (1,2),(2,2),(3,2)
becomes exactly the vertical 3-cell line (2,1),(2,2),(2,3) after one
`step()` and returns exactly to the original horizontal configuration
after two steps (period 2). -/
theorem C10_blinker_period (w h : Int) (hw5 : 5 ≤ w) (hh5 : 5 ≤ h) :
    ∃ l0 l1 l2 vf,
      mkLife w h [(1, 2), (2, 2), (3, 2)] = some l0 ∧
      mkField w h [(2, 1), (2, 2), (2, 3)] = some vf ∧
      l0.step = some l1 ∧ l1.step = some l2 ∧
      l1.thisGen = vf ∧ l2.thisGen = l0.thisGen ∧
      l1.genCount = 1 ∧ l2.genCount = 2 := by
  have hwm : (0 : Int) < w := by omega
  have hhm : (0 : Int) < h := by omega
  have hhc : ∀ p ∈ [((1 : Int), (2 : Int)), (2, 2), (3, 2)],
      0 ≤ p.1 ∧ p.1 < w ∧ 0 ≤ p.2 ∧ p.2 < h := by
    intro p hp
    fin_cases hp <;> refine ⟨?_, ?_, ?_, ?_⟩ <;> simp <;> omega
  have hvc : ∀ p ∈ [((2 : Int), (1 : Int)), (2, 2), (2, 3)],
      0 ≤ p.1 ∧ p.1 < w ∧ 0 ≤ p.2 ∧ p.2 < h := by
    intro p hp
    fin_cases hp <;> refine ⟨?_, ?_, ?_, ?_⟩ <;> simp <;> omega
  obtain ⟨l0, hl0, hl0wf, hl0w, hl0h, hl0g, hl0cell⟩ :=
    mkLife_eq w h [(1, 2), (2, 2), (3, 2)] hwm hhm hhc
  obtain ⟨vf, hvf, hvfwf, hvfw, hvfh, hvfcell⟩ :=
    mkField_eq w h [(2, 1), (2, 2), (2, 3)] hwm hhm hvc
  have hl0dec : ∀ a c : Int, 0 ≤ a → 0 ≤ c →
      storedAt l0.thisGen a c = decide (c = 2 ∧ 1 ≤ a ∧ a ≤ 3) := by
    intro a c ha hc
    apply bool_eq_decide
    rw [hl0cell a c ha hc]
    simp only [List.mem_cons, List.not_mem_nil, or_false, Prod.mk.injEq]
    omega
  have hvfdec : ∀ a c : Int, 0 ≤ a → 0 ≤ c →
      storedAt vf a c = decide (a = 2 ∧ 1 ≤ c ∧ c ≤ 3) := by
    intro a c ha hc
    apply bool_eq_decide
    rw [hvfcell a c ha hc]
    simp only [List.mem_cons, List.not_mem_nil, or_false, Prod.mk.injEq]
    omega
  have hl0tw := hl0wf.2.2.1
  have hl0th := hl0wf.2.2.2.1
  obtain ⟨l1, hstep1, hl1wf, hl1W, hl1H, hl1ng, hl1gc, hl1tw, hl1th,
    hl1cell⟩ := step_eq l0 hl0wf
  have hl1dec : ∀ a c : Int, 0 ≤ a → 0 ≤ c →
      storedAt l1.thisGen a c = decide (a = 2 ∧ 1 ≤ c ∧ c ≤ 3) := by
    intro a c ha hc
    by_cases hr : a < l0.width ∧ c < l0.height
    · rw [hl1cell a c ha hr.1 hc hr.2]
      have hthis := hl0wf.1
      have htw := hl0wf.2.2.1
      have hth := hl0wf.2.2.2.1
      exact nextSpec_hor l0.thisGen hthis (by omega) (by omega)
        hl0dec a c ha (by omega) hc (by omega)
    · have hor : l0.width ≤ a ∨ l0.height ≤ c := by omega
      have hoor : storedAt l1.thisGen a c = false :=
        storedAt_out_of_range l1.thisGen hl1wf.1 a c ha hc (by omega)
      rw [hoor]
      symm
      rw [decide_eq_false_iff_not]
      rintro ⟨ha2, hc1, hc3⟩
      omega
  have hl1vf : l1.thisGen = vf := by
    apply field_ext_stored _ _ hl1wf.1 hvfwf (by omega) (by omega)
    intro a c ha hc
    rw [hl1dec a c ha hc, hvfdec a c ha hc]
  obtain ⟨l2, hstep2, hl2wf, hl2W, hl2H, hl2ng, hl2gc, hl2tw, hl2th,
    hl2cell⟩ := step_eq l1 hl1wf
  have hl2dec : ∀ a c : Int, 0 ≤ a → 0 ≤ c →
      storedAt l2.thisGen a c = decide (c = 2 ∧ 1 ≤ a ∧ a ≤ 3) := by
    intro a c ha hc
    by_cases hr : a < l1.width ∧ c < l1.height
    · rw [hl2cell a c ha hr.1 hc hr.2]
      have hthis := hl1wf.1
      have htw := hl1wf.2.2.1
      have hth := hl1wf.2.2.2.1
      exact nextSpec_vert l1.thisGen hthis (by omega) (by omega)
        hl1dec a c ha (by omega) hc (by omega)
    · have hor : l1.width ≤ a ∨ l1.height ≤ c := by omega
      have hoor : storedAt l2.thisGen a c = false :=
        storedAt_out_of_range l2.thisGen hl2wf.1 a c ha hc (by omega)
      rw [hoor]
      symm
      rw [decide_eq_false_iff_not]
      rintro ⟨ha2, hc1, hc3⟩
      omega
  have hl2l0 : l2.thisGen = l0.thisGen := by
    apply field_ext_stored _ _ hl2wf.1 hl0wf.1 (by omega) (by omega)
    intro a c ha hc
    rw [hl2dec a c ha hc, hl0dec a c ha hc]
  exact ⟨l0, l1, l2, vf, hl0, hvf, hstep1, hstep2, hl1vf, hl2l0,
    by omega, by omega⟩

/-- Witness for claim C10 at the minimal 5 by 5 size. -/
theorem C10_blinker_witness :
    ∃ l0 l1 l2 vf,
      mkLife 5 5 [(1, 2), (2, 2), (3, 2)] = some l0 ∧
      mkField 5 5 [(2, 1), (2, 2), (2, 3)] = some vf ∧
      l0.step = some l1 ∧ l1.step = some l2 ∧
      l1.thisGen = vf ∧ l2.thisGen = l0.thisGen ∧
      l1.genCount = 1 ∧ l2.genCount = 2 :=
  C10_blinker_period 5 5 (by decide) (by decide)

/-- The claim C10 behavior checked by direct evaluation on two concrete
sizes (a sanity anchor alongside the general theorem). -/
theorem blinker_period_concrete :
    (((mkLife 5 5 [(1, 2), (2, 2), (3, 2)]).bind Life.step).map
        (fun l => l.thisGen) =
      mkField 5 5 [(2, 1), (2, 2), (2, 3)]) ∧
    ((((mkLife 5 5 [(1, 2), (2, 2), (3, 2)]).bind Life.step).bind
        Life.step).map (fun l => l.thisGen) =
      mkField 5 5 [(1, 2), (2, 2), (3, 2)]) ∧
    (((mkLife 6 7 [(1, 2), (2, 2), (3, 2)]).bind Life.step).map
        (fun l => l.thisGen) =
      mkField 6 7 [(2, 1), (2, 2), (2, 3)]) ∧
    ((((mkLife 6 7 [(1, 2), (2, 2), (3, 2)]).bind Life.step).bind
        Life.step).map (fun l => l.thisGen) =
      mkField 6 7 [(1, 2), (2, 2), (3, 2)]) := by
  decide

end GoLife
